import Mathlib

/-
Verification development for the order-matching engine in
src/broker-threading.cpp.

The matching core is sequential per order book: OrderBook::addOrder takes a
spinlock for the whole call, appends the order to its side's array and runs
OrderBook::matchOrders to completion before releasing the lock.  The shallow
embedding below therefore models one order book as two lists of orders and
the matching loop as a fuel-indexed recursive function (the fuel bounds the
number of loop iterations; with fuel equal to the total number of orders the
loop is proved to finish, see matchOrdersF_isSome).

C++ `double` prices are modelled as rationals: the engine only compares and
copies prices, never computes with them, so any linearly ordered field of
literals is a faithful model of the comparisons.  C++ `int` quantities are
modelled as Int (the simulation keeps them far from the 32-bit range, and no
claim concerns wrap-around).

Each order carries a ghost field `seq` (arrival sequence number) used only
to state time-priority properties; the matching code never reads it.
TradeEvent carries, besides the printed fields (ticker, quantity, price),
ghost snapshots of the two matched orders and of the two sides of the book
as they were when the trade executed; the matching code never reads them.
-/

namespace BrokerThreading

/-- Ticker symbols, modelled as their list of character codes
(class TickerString in the source stores a NUL-terminated char array). -/
abbrev Ticker := List Nat

/-- Total number of distinct tickers supported (const NUM_TICKERS). -/
def NUM_TICKERS : Nat := 1024

/-- Hash of a ticker: sum of the character codes modulo NUM_TICKERS
(function getOrderBookIndex in the source). -/
def getOrderBookIndex (ticker : Ticker) : Nat :=
  (ticker.foldl (fun total c => total + c) 0) % NUM_TICKERS

/-- Order side (enum OrderType). -/
inductive OrderType where
  | BUY
  | SELL
deriving DecidableEq, Repr

/-- One order record (class Order).  `seq` is a ghost arrival sequence
number used only in specifications; the engine never reads it. -/
structure Order where
  orderType : OrderType
  ticker : Ticker
  quantity : Int
  price : ℚ
  orderId : Nat
  seq : Nat
deriving DecidableEq, Repr

/-- Default order, mirroring the C++ default constructor
Order() : orderType BUY, quantity 0, price 0.0, orderId 0. -/
instance : Inhabited Order := ⟨⟨OrderType.BUY, [], 0, 0, 0, 0⟩⟩

/-- A trade execution event.  The engine prints ticker, quantity and price;
the remaining fields are ghost observations recording which orders matched
and the state of both sides of the book just before the trade. -/
structure TradeEvent where
  ticker : Ticker
  qty : Int
  price : ℚ
  buySnap : Order
  sellSnap : Order
  buyIdx : Nat
  sellIdx : Nat
  buysBefore : List Order
  sellsBefore : List Order
deriving DecidableEq, Repr

/-- The best-buy scan loop of OrderBook::matchOrders: starting from index
`i` with current best index `bi` and best price `bp`, replace the best
whenever a strictly higher price is found (`buyOrders[i].price > bestBuyPrice`). -/
def bestBuyAux : List Order → Nat → Nat → ℚ → Nat × ℚ
  | [], _, bi, bp => (bi, bp)
  | o :: rest, i, bi, bp =>
    if bp < o.price then bestBuyAux rest (i + 1) i o.price
    else bestBuyAux rest (i + 1) bi bp

/-- Index and price of the best (highest-priced) buy order, scanning from
index 0 as in the source; on ties the first index is kept. -/
def bestBuy : List Order → Nat × ℚ
  | [] => (0, 0)
  | o :: rest => bestBuyAux rest 1 0 o.price

/-- The best-sell scan loop of OrderBook::matchOrders: replace the best
whenever a strictly lower price is found (`sellOrders[i].price < bestSellPrice`). -/
def bestSellAux : List Order → Nat → Nat → ℚ → Nat × ℚ
  | [], _, si, sp => (si, sp)
  | o :: rest, i, si, sp =>
    if o.price < sp then bestSellAux rest (i + 1) i o.price
    else bestSellAux rest (i + 1) si sp

/-- Index and price of the best (lowest-priced) sell order; on ties the
first index is kept. -/
def bestSell : List Order → Nat × ℚ
  | [] => (0, 0)
  | o :: rest => bestSellAux rest 1 0 o.price

/-- The buy order selected for the trade (buyOrders[bestBuyIndex]). -/
def stepBuyOrder (buys : List Order) : Order :=
  buys.getD (bestBuy buys).1 default

/-- The sell order selected for the trade (sellOrders[bestSellIndex]). -/
def stepSellOrder (sells : List Order) : Order :=
  sells.getD (bestSell sells).1 default

/-- Trade quantity:
`(buyOrder.quantity < sellOrder.quantity) ? buyOrder.quantity : sellOrder.quantity`. -/
def stepQty (buys sells : List Order) : Int :=
  if (stepBuyOrder buys).quantity < (stepSellOrder sells).quantity then
    (stepBuyOrder buys).quantity
  else
    (stepSellOrder sells).quantity

/-- The trade event emitted by one loop iteration: the source prints the buy
order's ticker, the trade quantity and `tradePrice = sellOrder.price`
("Trade at the sell price").  Ghost fields record the matched orders and
the pre-trade book sides. -/
def stepEvent (buys sells : List Order) : TradeEvent :=
  { ticker := (stepBuyOrder buys).ticker
    qty := stepQty buys sells
    price := (stepSellOrder sells).price
    buySnap := stepBuyOrder buys
    sellSnap := stepSellOrder sells
    buyIdx := (bestBuy buys).1
    sellIdx := (bestSell sells).1
    buysBefore := buys
    sellsBefore := sells }

/-- Buy side after one trade: `buyOrder.quantity -= tradeQty`, then
`if (buyOrder.quantity <= 0) buyOrders.removeAt(bestBuyIndex)`. -/
def stepBuys (buys sells : List Order) : List Order :=
  if (stepBuyOrder buys).quantity - stepQty buys sells ≤ 0 then
    (buys.set (bestBuy buys).1
      { stepBuyOrder buys with
        quantity := (stepBuyOrder buys).quantity - stepQty buys sells }).eraseIdx
      (bestBuy buys).1
  else
    buys.set (bestBuy buys).1
      { stepBuyOrder buys with
        quantity := (stepBuyOrder buys).quantity - stepQty buys sells }

/-- Sell side after one trade: `sellOrder.quantity -= tradeQty`, then
`if (sellOrder.quantity <= 0) sellOrders.removeAt(bestSellIndex)`. -/
def stepSells (buys sells : List Order) : List Order :=
  if (stepSellOrder sells).quantity - stepQty buys sells ≤ 0 then
    (sells.set (bestSell sells).1
      { stepSellOrder sells with
        quantity := (stepSellOrder sells).quantity - stepQty buys sells }).eraseIdx
      (bestSell sells).1
  else
    sells.set (bestSell sells).1
      { stepSellOrder sells with
        quantity := (stepSellOrder sells).quantity - stepQty buys sells }

/-- The matching loop of OrderBook::matchOrders, indexed by fuel bounding
the number of iterations (`none` when the fuel runs out before the loop's
own exit conditions fire; matchOrdersF_isSome below shows that fuel equal
to the total number of orders always suffices).  The loop runs
`while (!buyOrders.isEmpty() && !sellOrders.isEmpty())` and breaks when
`bestBuyPrice < bestSellPrice`; otherwise it executes one trade and
repeats.  Returns the final buy side, the final sell side, and the emitted
trade events in order. -/
def matchOrdersF : Nat → List Order → List Order →
    Option (List Order × List Order × List TradeEvent)
  | 0, buys, sells =>
    if buys.isEmpty || sells.isEmpty then some (buys, sells, [])
    else if (bestBuy buys).2 < (bestSell sells).2 then some (buys, sells, [])
    else none
  | fuel + 1, buys, sells =>
    if buys.isEmpty || sells.isEmpty then some (buys, sells, [])
    else if (bestBuy buys).2 < (bestSell sells).2 then some (buys, sells, [])
    else
      (matchOrdersF fuel (stepBuys buys sells) (stepSells buys sells)).map
        (fun r => (r.1, r.2.1, stepEvent buys sells :: r.2.2))

/-- One order book: a buy-side and a sell-side order collection
(class OrderBook with its two OrderList members). -/
structure OrderBook where
  buyOrders : List Order
  sellOrders : List Order
deriving DecidableEq, Repr

/-- Fuel sufficient for the matching loop of a book: every iteration
removes at least one fully filled order from the book, so the loop runs at
most this many times. -/
def OrderBook.matchFuel (bk : OrderBook) : Nat :=
  bk.buyOrders.length + bk.sellOrders.length

/-- OrderBook::matchOrders run to completion on a book.  The `none` fallback
branch is dead code by matchOrdersF_isSome. -/
def OrderBook.matchOrders (bk : OrderBook) : OrderBook × List TradeEvent :=
  match matchOrdersF bk.matchFuel bk.buyOrders bk.sellOrders with
  | some r => (⟨r.1, r.2.1⟩, r.2.2)
  | none => (bk, [])

/-- OrderBook::addOrder (with the spinlock elided: it serializes the whole
call): append the order to its side's list, then run the matching loop.
No validation of quantity or price is performed. -/
def OrderBook.addOrder (bk : OrderBook) (o : Order) : OrderBook × List TradeEvent :=
  if o.orderType = OrderType.BUY then
    OrderBook.matchOrders { bk with buyOrders := bk.buyOrders ++ [o] }
  else
    OrderBook.matchOrders { bk with sellOrders := bk.sellOrders ++ [o] }

/-- The free function addOrder: route the order to the book selected by the
ticker hash and submit it there.  The order id comes from a global RNG in
the source and the ghost arrival number from the caller here; neither is
read by the matching code.  No validation of quantity or price is
performed. -/
def addOrder (books : Nat → OrderBook) (orderType : OrderType) (ticker : Ticker)
    (quantity : Int) (price : ℚ) (orderId seq : Nat) :
    (Nat → OrderBook) × List TradeEvent :=
  let idx := getOrderBookIndex ticker
  let o : Order := ⟨orderType, ticker, quantity, price, orderId, seq⟩
  let r := (books idx).addOrder o
  (Function.update books idx r.1, r.2)

/-- Projection of an order to everything except its mutable quantity; used
to state that matching only ever changes quantities and removes entries. -/
def orderKey (o : Order) : OrderType × Ticker × ℚ × Nat × Nat :=
  (o.orderType, o.ticker, o.price, o.orderId, o.seq)

/-- Ticker used by the concrete scenarios. -/
def tickA : Ticker := [65]

/-- Scenario A, first submission: Buy 100 at price 50. -/
def oBuyA : Order := ⟨OrderType.BUY, tickA, 100, 50, 1, 0⟩

/-- Scenario A, second submission: Sell 60 at price 45. -/
def oSellA : Order := ⟨OrderType.SELL, tickA, 60, 45, 2, 1⟩

/-- Scenario A buy order after the trade: 40 remaining. -/
def oBuyA' : Order := ⟨OrderType.BUY, tickA, 40, 50, 1, 0⟩

/-- The trade event Scenario A produces: 60 shares at the sell price 45. -/
def evA : TradeEvent :=
  ⟨tickA, 60, 45, oBuyA, oSellA, 0, 0, [oBuyA], [oSellA]⟩

/-- An order with negative quantity, accepted unchecked by addOrder. -/
def oNeg : Order := ⟨OrderType.BUY, tickA, -5, 10, 3, 0⟩

/-- Scenario B resting order: Buy 10 at price 20, arrival 0. -/
def oBuy20 : Order := ⟨OrderType.BUY, tickA, 10, 20, 4, 0⟩

/-- Scenario B resting order: Buy 10 at price 21, arrival 1. -/
def oBuy21 : Order := ⟨OrderType.BUY, tickA, 10, 21, 5, 1⟩

/-- Scenario B incoming order: Sell 15 at price 19, arrival 2. -/
def oSell19 : Order := ⟨OrderType.SELL, tickA, 15, 19, 6, 2⟩

/-- Scenario B first buy order after both trades: 5 remaining. -/
def oBuy20' : Order := ⟨OrderType.BUY, tickA, 5, 20, 4, 0⟩

/-- Scenario B sell order after the first trade: 5 remaining. -/
def oSell19' : Order := ⟨OrderType.SELL, tickA, 5, 19, 6, 2⟩

/-- Scenario B first trade: the better-priced buy (21) matches first. -/
def evB1 : TradeEvent :=
  ⟨tickA, 10, 19, oBuy21, oSell19, 1, 0, [oBuy20, oBuy21], [oSell19]⟩

/-- Scenario B second trade: the remaining buy at 20 fills the rest. -/
def evB2 : TradeEvent :=
  ⟨tickA, 5, 19, oBuy20, oSell19', 0, 0, [oBuy20], [oSell19']⟩

/-- Tie scenario resting order: Buy 10 at price 20, arrival 0. -/
def oTie0 : Order := ⟨OrderType.BUY, tickA, 10, 20, 11, 0⟩

/-- Tie scenario resting order: Buy 10 at the same price 20, arrival 1. -/
def oTie1 : Order := ⟨OrderType.BUY, tickA, 10, 20, 12, 1⟩

/-- Tie scenario incoming order: Sell 5 at price 20, arrival 2. -/
def oTieSell : Order := ⟨OrderType.SELL, tickA, 5, 20, 13, 2⟩

/-- Tie scenario first buy order after the trade: 5 remaining. -/
def oTie0' : Order := ⟨OrderType.BUY, tickA, 5, 20, 11, 0⟩

/-- Tie scenario trade: the earlier-arrived of the equal-priced buys
matches. -/
def evT : TradeEvent :=
  ⟨tickA, 5, 20, oTie0, oTieSell, 0, 0, [oTie0, oTie1], [oTieSell]⟩

/-- A resting buy below the incoming sell's limit: no trade occurs. -/
def oRestBuy : Order := ⟨OrderType.BUY, tickA, 10, 50, 8, 0⟩

/-- An incoming sell priced above the resting buy: it rests. -/
def oHighSell : Order := ⟨OrderType.SELL, tickA, 5, 60, 9, 1⟩

/-- Element read by getD at a valid index is a member of the list. -/
theorem getD_mem {α : Type} (l : List α) (d : α) (j : Nat) (h : j < l.length) :
    l.getD j d ∈ l := by
  rw [List.getD_eq_getElem l d h]
  exact List.getElem_mem h

/-- Every member of a list is read by getD at some valid index. -/
theorem exists_getD_of_mem {α : Type} {a : α} {l : List α} (d : α) (h : a ∈ l) :
    ∃ j, j < l.length ∧ l.getD j d = a := by
  rcases List.mem_iff_getElem.1 h with ⟨n, hn, rfl⟩
  exact ⟨n, hn, List.getD_eq_getElem l d hn⟩

/-- Setting an index and then erasing that same index is the same as erasing
it from the original list. -/
theorem set_eraseIdx_self {α : Type} (l : List α) (i : Nat) (a : α) :
    (l.set i a).eraseIdx i = l.eraseIdx i := by
  induction l generalizing i with
  | nil => simp
  | cons x xs ih =>
    cases i with
    | zero => simp
    | succ i => simp [List.set_cons_succ, List.eraseIdx_cons_succ, ih]

/-- Mapping commutes with eraseIdx. -/
theorem map_eraseIdx {α β : Type} (f : α → β) (l : List α) (i : Nat) :
    (l.eraseIdx i).map f = (l.map f).eraseIdx i := by
  induction l generalizing i with
  | nil => simp
  | cons x xs ih =>
    cases i with
    | zero => simp
    | succ i => simp [List.eraseIdx_cons_succ, ih]

/-- Pairwise relation between getD reads at increasing valid indices. -/
theorem pairwise_getD {α : Type} {R : α → α → Prop} {l : List α}
    (h : List.Pairwise R l) (d : α) (i j : Nat) (hij : i < j) (hj : j < l.length) :
    R (l.getD i d) (l.getD j d) := by
  rw [List.getD_eq_getElem l d (lt_trans hij hj), List.getD_eq_getElem l d hj]
  exact List.pairwise_iff_getElem.1 h i j (lt_trans hij hj) hj hij

/-- The best-buy scan never lowers the running best price. -/
theorem bestBuyAux_le (rest : List Order) :
    ∀ i bi bp, bp ≤ (bestBuyAux rest i bi bp).2 := by
  induction rest with
  | nil => intro i bi bp; simp [bestBuyAux]
  | cons o rest ih =>
    intro i bi bp
    by_cases h : bp < o.price
    · simp only [bestBuyAux, if_pos h]
      exact le_trans (le_of_lt h) (ih (i + 1) i o.price)
    · simp only [bestBuyAux, if_neg h]
      exact ih (i + 1) bi bp

/-- Every order inspected by the best-buy scan is priced at most the result. -/
theorem bestBuyAux_getD_le (rest : List Order) :
    ∀ i bi bp j, j < rest.length →
      (rest.getD j default).price ≤ (bestBuyAux rest i bi bp).2 := by
  induction rest with
  | nil => intro i bi bp j hj; simp at hj
  | cons o rest ih =>
    intro i bi bp j hj
    cases j with
    | zero =>
      simp only [List.getD_cons_zero]
      by_cases h : bp < o.price
      · simp only [bestBuyAux, if_pos h]
        exact bestBuyAux_le rest (i + 1) i o.price
      · simp only [bestBuyAux, if_neg h]
        exact le_trans (le_of_not_lt h) (bestBuyAux_le rest (i + 1) bi bp)
    | succ j =>
      simp only [List.getD_cons_succ]
      by_cases h : bp < o.price
      · simp only [bestBuyAux, if_pos h]
        exact ih (i + 1) i o.price j (by simpa using hj)
      · simp only [bestBuyAux, if_neg h]
        exact ih (i + 1) bi bp j (by simpa using hj)

/-- The best-buy scan either keeps its running candidate unchanged or moves
to an index at least `i` with a strictly better price. -/
theorem bestBuyAux_cases (rest : List Order) :
    ∀ i bi bp, bestBuyAux rest i bi bp = (bi, bp) ∨
      (i ≤ (bestBuyAux rest i bi bp).1 ∧ bp < (bestBuyAux rest i bi bp).2) := by
  induction rest with
  | nil => intro i bi bp; exact Or.inl rfl
  | cons o rest ih =>
    intro i bi bp
    by_cases h : bp < o.price
    · simp only [bestBuyAux, if_pos h]
      rcases ih (i + 1) i o.price with heq | ⟨hi, hlt⟩
      · exact Or.inr ⟨by rw [heq], by rw [heq]; exact h⟩
      · exact Or.inr ⟨le_trans (Nat.le_succ i) hi, lt_trans h hlt⟩
    · simp only [bestBuyAux, if_neg h]
      rcases ih (i + 1) bi bp with heq | ⟨hi, hlt⟩
      · exact Or.inl heq
      · exact Or.inr ⟨le_trans (Nat.le_succ i) hi, hlt⟩

/-- The best-buy scan result is either the initial candidate or points at an
element of the scanned suffix, with matching price. -/
theorem bestBuyAux_provenance (rest : List Order) :
    ∀ i bi bp, bestBuyAux rest i bi bp = (bi, bp) ∨
      ∃ j, j < rest.length ∧ (bestBuyAux rest i bi bp).1 = i + j ∧
        (bestBuyAux rest i bi bp).2 = (rest.getD j default).price := by
  induction rest with
  | nil => intro i bi bp; exact Or.inl rfl
  | cons o rest ih =>
    intro i bi bp
    by_cases h : bp < o.price
    · simp only [bestBuyAux, if_pos h]
      rcases ih (i + 1) i o.price with heq | ⟨j, hj, h1, h2⟩
      · refine Or.inr ⟨0, by simp, ?_, ?_⟩
        · rw [heq]; simp
        · rw [heq]; simp
      · refine Or.inr ⟨j + 1, by simpa using hj, ?_, ?_⟩
        · rw [h1]; omega
        · rw [h2]; simp
    · simp only [bestBuyAux, if_neg h]
      rcases ih (i + 1) bi bp with heq | ⟨j, hj, h1, h2⟩
      · exact Or.inl heq
      · refine Or.inr ⟨j + 1, by simpa using hj, ?_, ?_⟩
        · rw [h1]; omega
        · rw [h2]; simp

/-- First-occurrence property of the best-buy scan: any scanned element
whose price equals the final best price lies at or after the returned
index. -/
theorem bestBuyAux_first (rest : List Order) :
    ∀ i bi bp, bi < i → ∀ j, j < rest.length →
      (rest.getD j default).price = (bestBuyAux rest i bi bp).2 →
      (bestBuyAux rest i bi bp).1 ≤ i + j := by
  induction rest with
  | nil => intro i bi bp _ j hj; simp at hj
  | cons o rest ih =>
    intro i bi bp hbi j hj heq
    cases j with
    | zero =>
      simp only [List.getD_cons_zero] at heq
      by_cases h : bp < o.price
      · simp only [bestBuyAux, if_pos h] at heq ⊢
        rcases bestBuyAux_cases rest (i + 1) i o.price with hc | ⟨_, hlt⟩
        · rw [hc]; omega
        · exact absurd heq (ne_of_lt hlt)
      · simp only [bestBuyAux, if_neg h] at heq ⊢
        rcases bestBuyAux_cases rest (i + 1) bi bp with hc | ⟨_, hlt⟩
        · rw [hc]; omega
        · have : o.price ≤ bp := le_of_not_lt h
          exact absurd heq (ne_of_lt (lt_of_le_of_lt this hlt))
    | succ j =>
      simp only [List.getD_cons_succ] at heq
      by_cases h : bp < o.price
      · simp only [bestBuyAux, if_pos h] at heq ⊢
        have := ih (i + 1) i o.price (Nat.lt_succ_self i) j (by simpa using hj) heq
        omega
      · simp only [bestBuyAux, if_neg h] at heq ⊢
        have := ih (i + 1) bi bp (Nat.lt_succ_of_lt hbi) j (by simpa using hj) heq
        omega

/-- The best-buy index is a valid index of a nonempty buy side. -/
theorem bestBuy_idx_lt (l : List Order) (h : l ≠ []) : (bestBuy l).1 < l.length := by
  match l, h with
  | o :: rest, _ =>
    rcases bestBuyAux_provenance rest 1 0 o.price with heq | ⟨j, hj, h1, _⟩
    · show (bestBuyAux rest 1 0 o.price).1 < (o :: rest).length
      rw [heq]; simp
    · show (bestBuyAux rest 1 0 o.price).1 < (o :: rest).length
      rw [h1]; simp; omega

/-- The price component of bestBuy is the price of the order at the
returned index. -/
theorem bestBuy_getD (l : List Order) (h : l ≠ []) :
    (l.getD (bestBuy l).1 default).price = (bestBuy l).2 := by
  match l, h with
  | o :: rest, _ =>
    rcases bestBuyAux_provenance rest 1 0 o.price with heq | ⟨j, hj, h1, h2⟩
    · show ((o :: rest).getD (bestBuyAux rest 1 0 o.price).1 default).price =
        (bestBuyAux rest 1 0 o.price).2
      rw [heq]; simp
    · show ((o :: rest).getD (bestBuyAux rest 1 0 o.price).1 default).price =
        (bestBuyAux rest 1 0 o.price).2
      rw [h1, h2]
      have : 1 + j = j + 1 := by omega
      rw [this, List.getD_cons_succ]

/-- Every buy order is priced at most the bestBuy price. -/
theorem bestBuy_mem_le (l : List Order) : ∀ o ∈ l, o.price ≤ (bestBuy l).2 := by
  match l with
  | [] => intro o ho; simp at ho
  | o :: rest =>
    intro o' ho'
    rcases List.mem_cons.1 ho' with rfl | hmem
    · exact bestBuyAux_le rest 1 0 o'.price
    · rcases exists_getD_of_mem default hmem with ⟨j, hj, hg⟩
      have := bestBuyAux_getD_le rest 1 0 o.price j hj
      rw [hg] at this
      exact this

/-- On price ties the bestBuy scan keeps the earliest (lowest) index. -/
theorem bestBuy_first (l : List Order) (h : l ≠ []) :
    ∀ j, j < l.length → (l.getD j default).price = (bestBuy l).2 →
      (bestBuy l).1 ≤ j := by
  match l, h with
  | o :: rest, _ =>
    intro j hj heq
    cases j with
    | zero =>
      simp only [List.getD_cons_zero] at heq
      rcases bestBuyAux_cases rest 1 0 o.price with hc | ⟨_, hlt⟩
      · show (bestBuyAux rest 1 0 o.price).1 ≤ 0
        rw [hc]
      · exact absurd heq (ne_of_lt hlt)
    | succ j =>
      simp only [List.getD_cons_succ] at heq
      have := bestBuyAux_first rest 1 0 o.price Nat.zero_lt_one j (by simpa using hj) heq
      show (bestBuyAux rest 1 0 o.price).1 ≤ j + 1
      omega

/-- The best-sell scan never raises the running best price. -/
theorem bestSellAux_ge (rest : List Order) :
    ∀ i si sp, (bestSellAux rest i si sp).2 ≤ sp := by
  induction rest with
  | nil => intro i si sp; simp [bestSellAux]
  | cons o rest ih =>
    intro i si sp
    by_cases h : o.price < sp
    · simp only [bestSellAux, if_pos h]
      exact le_trans (ih (i + 1) i o.price) (le_of_lt h)
    · simp only [bestSellAux, if_neg h]
      exact ih (i + 1) si sp

/-- Every order inspected by the best-sell scan is priced at least the result. -/
theorem bestSellAux_getD_ge (rest : List Order) :
    ∀ i si sp j, j < rest.length →
      (bestSellAux rest i si sp).2 ≤ (rest.getD j default).price := by
  induction rest with
  | nil => intro i si sp j hj; simp at hj
  | cons o rest ih =>
    intro i si sp j hj
    cases j with
    | zero =>
      simp only [List.getD_cons_zero]
      by_cases h : o.price < sp
      · simp only [bestSellAux, if_pos h]
        exact bestSellAux_ge rest (i + 1) i o.price
      · simp only [bestSellAux, if_neg h]
        exact le_trans (bestSellAux_ge rest (i + 1) si sp) (le_of_not_lt h)
    | succ j =>
      simp only [List.getD_cons_succ]
      by_cases h : o.price < sp
      · simp only [bestSellAux, if_pos h]
        exact ih (i + 1) i o.price j (by simpa using hj)
      · simp only [bestSellAux, if_neg h]
        exact ih (i + 1) si sp j (by simpa using hj)

/-- The best-sell scan either keeps its running candidate unchanged or moves
to an index at least `i` with a strictly better (lower) price. -/
theorem bestSellAux_cases (rest : List Order) :
    ∀ i si sp, bestSellAux rest i si sp = (si, sp) ∨
      (i ≤ (bestSellAux rest i si sp).1 ∧ (bestSellAux rest i si sp).2 < sp) := by
  induction rest with
  | nil => intro i si sp; exact Or.inl rfl
  | cons o rest ih =>
    intro i si sp
    by_cases h : o.price < sp
    · simp only [bestSellAux, if_pos h]
      rcases ih (i + 1) i o.price with heq | ⟨hi, hlt⟩
      · exact Or.inr ⟨by rw [heq], by rw [heq]; exact h⟩
      · exact Or.inr ⟨le_trans (Nat.le_succ i) hi, lt_trans hlt h⟩
    · simp only [bestSellAux, if_neg h]
      rcases ih (i + 1) si sp with heq | ⟨hi, hlt⟩
      · exact Or.inl heq
      · exact Or.inr ⟨le_trans (Nat.le_succ i) hi, hlt⟩

/-- The best-sell scan result is either the initial candidate or points at
an element of the scanned suffix, with matching price. -/
theorem bestSellAux_provenance (rest : List Order) :
    ∀ i si sp, bestSellAux rest i si sp = (si, sp) ∨
      ∃ j, j < rest.length ∧ (bestSellAux rest i si sp).1 = i + j ∧
        (bestSellAux rest i si sp).2 = (rest.getD j default).price := by
  induction rest with
  | nil => intro i si sp; exact Or.inl rfl
  | cons o rest ih =>
    intro i si sp
    by_cases h : o.price < sp
    · simp only [bestSellAux, if_pos h]
      rcases ih (i + 1) i o.price with heq | ⟨j, hj, h1, h2⟩
      · refine Or.inr ⟨0, by simp, ?_, ?_⟩
        · rw [heq]; simp
        · rw [heq]; simp
      · refine Or.inr ⟨j + 1, by simpa using hj, ?_, ?_⟩
        · rw [h1]; omega
        · rw [h2]; simp
    · simp only [bestSellAux, if_neg h]
      rcases ih (i + 1) si sp with heq | ⟨j, hj, h1, h2⟩
      · exact Or.inl heq
      · refine Or.inr ⟨j + 1, by simpa using hj, ?_, ?_⟩
        · rw [h1]; omega
        · rw [h2]; simp

/-- First-occurrence property of the best-sell scan: any scanned element
whose price equals the final best price lies at or after the returned
index. -/
theorem bestSellAux_first (rest : List Order) :
    ∀ i si sp, si < i → ∀ j, j < rest.length →
      (rest.getD j default).price = (bestSellAux rest i si sp).2 →
      (bestSellAux rest i si sp).1 ≤ i + j := by
  induction rest with
  | nil => intro i si sp _ j hj; simp at hj
  | cons o rest ih =>
    intro i si sp hsi j hj heq
    cases j with
    | zero =>
      simp only [List.getD_cons_zero] at heq
      by_cases h : o.price < sp
      · simp only [bestSellAux, if_pos h] at heq ⊢
        rcases bestSellAux_cases rest (i + 1) i o.price with hc | ⟨_, hlt⟩
        · rw [hc]; omega
        · exact absurd heq.symm (ne_of_lt hlt)
      · simp only [bestSellAux, if_neg h] at heq ⊢
        rcases bestSellAux_cases rest (i + 1) si sp with hc | ⟨_, hlt⟩
        · rw [hc]; omega
        · have : sp ≤ o.price := le_of_not_lt h
          exact absurd heq.symm (ne_of_lt (lt_of_lt_of_le hlt this))
    | succ j =>
      simp only [List.getD_cons_succ] at heq
      by_cases h : o.price < sp
      · simp only [bestSellAux, if_pos h] at heq ⊢
        have := ih (i + 1) i o.price (Nat.lt_succ_self i) j (by simpa using hj) heq
        omega
      · simp only [bestSellAux, if_neg h] at heq ⊢
        have := ih (i + 1) si sp (Nat.lt_succ_of_lt hsi) j (by simpa using hj) heq
        omega

/-- The best-sell index is a valid index of a nonempty sell side. -/
theorem bestSell_idx_lt (l : List Order) (h : l ≠ []) : (bestSell l).1 < l.length := by
  match l, h with
  | o :: rest, _ =>
    rcases bestSellAux_provenance rest 1 0 o.price with heq | ⟨j, hj, h1, _⟩
    · show (bestSellAux rest 1 0 o.price).1 < (o :: rest).length
      rw [heq]; simp
    · show (bestSellAux rest 1 0 o.price).1 < (o :: rest).length
      rw [h1]; simp; omega

/-- The price component of bestSell is the price of the order at the
returned index. -/
theorem bestSell_getD (l : List Order) (h : l ≠ []) :
    (l.getD (bestSell l).1 default).price = (bestSell l).2 := by
  match l, h with
  | o :: rest, _ =>
    rcases bestSellAux_provenance rest 1 0 o.price with heq | ⟨j, hj, h1, h2⟩
    · show ((o :: rest).getD (bestSellAux rest 1 0 o.price).1 default).price =
        (bestSellAux rest 1 0 o.price).2
      rw [heq]; simp
    · show ((o :: rest).getD (bestSellAux rest 1 0 o.price).1 default).price =
        (bestSellAux rest 1 0 o.price).2
      rw [h1, h2]
      have : 1 + j = j + 1 := by omega
      rw [this, List.getD_cons_succ]

/-- Every sell order is priced at least the bestSell price. -/
theorem bestSell_mem_ge (l : List Order) : ∀ o ∈ l, (bestSell l).2 ≤ o.price := by
  match l with
  | [] => intro o ho; simp at ho
  | o :: rest =>
    intro o' ho'
    rcases List.mem_cons.1 ho' with rfl | hmem
    · exact bestSellAux_ge rest 1 0 o'.price
    · rcases exists_getD_of_mem default hmem with ⟨j, hj, hg⟩
      have := bestSellAux_getD_ge rest 1 0 o.price j hj
      rw [hg] at this
      exact this

/-- On price ties the bestSell scan keeps the earliest (lowest) index. -/
theorem bestSell_first (l : List Order) (h : l ≠ []) :
    ∀ j, j < l.length → (l.getD j default).price = (bestSell l).2 →
      (bestSell l).1 ≤ j := by
  match l, h with
  | o :: rest, _ =>
    intro j hj heq
    cases j with
    | zero =>
      simp only [List.getD_cons_zero] at heq
      rcases bestSellAux_cases rest 1 0 o.price with hc | ⟨_, hlt⟩
      · show (bestSellAux rest 1 0 o.price).1 ≤ 0
        rw [hc]
      · exact absurd heq.symm (ne_of_lt hlt)
    | succ j =>
      simp only [List.getD_cons_succ] at heq
      have := bestSellAux_first rest 1 0 o.price Nat.zero_lt_one j (by simpa using hj) heq
      show (bestSellAux rest 1 0 o.price).1 ≤ j + 1
      omega

/-- Setting an index to the value already there leaves the list unchanged. -/
theorem set_getD_self {α : Type} (l : List α) (d : α) :
    ∀ i, i < l.length → l.set i (l.getD i d) = l := by
  induction l with
  | nil => intro i h; simp at h
  | cons x xs ih =>
    intro i h
    cases i with
    | zero => simp
    | succ i =>
      simp only [List.getD_cons_succ, List.set_cons_succ]
      rw [ih i (by simpa using h)]

/-- Setting an index to a value with the same image under `f` leaves the
mapped list unchanged. -/
theorem map_set_eq {α β : Type} (f : α → β) (l : List α) (i : Nat)
    (h : i < l.length) (a d : α) (hf : f a = f (l.getD i d)) :
    (l.set i a).map f = l.map f := by
  rw [List.map_set, hf, ← List.getD_map l d f,
    set_getD_self (l.map f) (f d) i (by simpa using h)]

/-- The selected buy order is a member of the buy side. -/
theorem stepBuyOrder_mem (buys : List Order) (h : buys ≠ []) :
    stepBuyOrder buys ∈ buys :=
  getD_mem buys default (bestBuy buys).1 (bestBuy_idx_lt buys h)

/-- The selected sell order is a member of the sell side. -/
theorem stepSellOrder_mem (sells : List Order) (h : sells ≠ []) :
    stepSellOrder sells ∈ sells :=
  getD_mem sells default (bestSell sells).1 (bestSell_idx_lt sells h)

/-- The selected buy order carries the bestBuy price. -/
theorem stepBuyOrder_price (buys : List Order) (h : buys ≠ []) :
    (stepBuyOrder buys).price = (bestBuy buys).2 :=
  bestBuy_getD buys h

/-- The selected sell order carries the bestSell price. -/
theorem stepSellOrder_price (sells : List Order) (h : sells ≠ []) :
    (stepSellOrder sells).price = (bestSell sells).2 :=
  bestSell_getD sells h

/-- The conditional expression computing the trade quantity is the minimum
of the two selected orders' remaining quantities. -/
theorem stepQty_eq_min (buys sells : List Order) :
    stepQty buys sells =
      min (stepBuyOrder buys).quantity (stepSellOrder sells).quantity := by
  simp only [stepQty]
  split <;> omega

/-- The trade quantity never exceeds the selected buy order's remaining. -/
theorem stepQty_le_buy (buys sells : List Order) :
    stepQty buys sells ≤ (stepBuyOrder buys).quantity := by
  simp only [stepQty]
  split <;> omega

/-- The trade quantity never exceeds the selected sell order's remaining. -/
theorem stepQty_le_sell (buys sells : List Order) :
    stepQty buys sells ≤ (stepSellOrder sells).quantity := by
  simp only [stepQty]
  split <;> omega

/-- Length of the buy side after one trade: one entry disappears exactly
when the selected buy order is fully filled. -/
theorem stepBuys_length (buys sells : List Order) (h : buys ≠ []) :
    (stepBuys buys sells).length =
      if (stepBuyOrder buys).quantity - stepQty buys sells ≤ 0 then
        buys.length - 1
      else buys.length := by
  have hlt : (bestBuy buys).1 < buys.length := bestBuy_idx_lt buys h
  simp only [stepBuys]
  split
  · rw [List.length_eraseIdx, List.length_set, if_pos hlt]
  · rw [List.length_set]

/-- Length of the sell side after one trade. -/
theorem stepSells_length (buys sells : List Order) (h : sells ≠ []) :
    (stepSells buys sells).length =
      if (stepSellOrder sells).quantity - stepQty buys sells ≤ 0 then
        sells.length - 1
      else sells.length := by
  have hlt : (bestSell sells).1 < sells.length := bestSell_idx_lt sells h
  simp only [stepSells]
  split
  · rw [List.length_eraseIdx, List.length_set, if_pos hlt]
  · rw [List.length_set]

/-- Every trade iteration strictly shrinks the book: the trade quantity is
the minimum of the two remaining quantities, so at least one of the two
matched orders reaches a non-positive remaining and is removed. -/
theorem step_length_lt (buys sells : List Order) (hb : buys ≠ []) (hs : sells ≠ []) :
    (stepBuys buys sells).length + (stepSells buys sells).length <
      buys.length + sells.length := by
  have hq := stepQty_eq_min buys sells
  have hbp : 0 < buys.length := List.length_pos.2 hb
  have hsp : 0 < sells.length := List.length_pos.2 hs
  rw [stepBuys_length buys sells hb, stepSells_length buys sells hs]
  split_ifs <;> omega

/-- Matching preserves positivity of all remaining quantities on the buy
side: a fully filled order is removed, a partially filled one keeps a
positive remainder. -/
theorem stepBuys_pos (buys sells : List Order)
    (hbp : ∀ o ∈ buys, 0 < o.quantity) :
    ∀ o ∈ stepBuys buys sells, 0 < o.quantity := by
  intro o ho
  simp only [stepBuys] at ho
  by_cases hc : (stepBuyOrder buys).quantity - stepQty buys sells ≤ 0
  · rw [if_pos hc, set_eraseIdx_self] at ho
    exact hbp o ((List.eraseIdx_sublist buys (bestBuy buys).1).subset ho)
  · rw [if_neg hc] at ho
    rcases List.mem_or_eq_of_mem_set ho with h | rfl
    · exact hbp o h
    · have := not_le.mp hc
      simpa using this

/-- Matching preserves positivity of all remaining quantities on the sell
side. -/
theorem stepSells_pos (buys sells : List Order)
    (hsp : ∀ o ∈ sells, 0 < o.quantity) :
    ∀ o ∈ stepSells buys sells, 0 < o.quantity := by
  intro o ho
  simp only [stepSells] at ho
  by_cases hc : (stepSellOrder sells).quantity - stepQty buys sells ≤ 0
  · rw [if_pos hc, set_eraseIdx_self] at ho
    exact hsp o ((List.eraseIdx_sublist sells (bestSell sells).1).subset ho)
  · rw [if_neg hc] at ho
    rcases List.mem_or_eq_of_mem_set ho with h | rfl
    · exact hsp o h
    · have := not_le.mp hc
      simpa using this

/-- One trade iteration only decrements a quantity or removes an entry on
the buy side: the projection forgetting quantities is a sublist of what it
was. -/
theorem stepBuys_key_sublist (buys sells : List Order) (hb : buys ≠ []) :
    ((stepBuys buys sells).map orderKey).Sublist (buys.map orderKey) := by
  have hlt := bestBuy_idx_lt buys hb
  simp only [stepBuys]
  split
  · rw [set_eraseIdx_self, map_eraseIdx]
    exact List.eraseIdx_sublist _ _
  · rw [map_set_eq orderKey buys (bestBuy buys).1 hlt
      { stepBuyOrder buys with
        quantity := (stepBuyOrder buys).quantity - stepQty buys sells } default rfl]

/-- One trade iteration only decrements a quantity or removes an entry on
the sell side. -/
theorem stepSells_key_sublist (buys sells : List Order) (hs : sells ≠ []) :
    ((stepSells buys sells).map orderKey).Sublist (sells.map orderKey) := by
  have hlt := bestSell_idx_lt sells hs
  simp only [stepSells]
  split
  · rw [set_eraseIdx_self, map_eraseIdx]
    exact List.eraseIdx_sublist _ _
  · rw [map_set_eq orderKey sells (bestSell sells).1 hlt
      { stepSellOrder sells with
        quantity := (stepSellOrder sells).quantity - stepQty buys sells } default rfl]

/-- One trade iteration preserves strict ordering of the ghost arrival
numbers on the buy side (removal keeps relative order and the in-place
quantity update does not touch `seq`). -/
theorem stepBuys_pairwise (buys sells : List Order) (hb : buys ≠ [])
    (hpw : List.Pairwise (fun a b : Order => a.seq < b.seq) buys) :
    List.Pairwise (fun a b : Order => a.seq < b.seq) (stepBuys buys sells) := by
  have hlt := bestBuy_idx_lt buys hb
  simp only [stepBuys]
  split
  · rw [set_eraseIdx_self]
    exact hpw.sublist (List.eraseIdx_sublist _ _)
  · have h2 := map_set_eq Order.seq buys (bestBuy buys).1 hlt
      { stepBuyOrder buys with
        quantity := (stepBuyOrder buys).quantity - stepQty buys sells } default rfl
    have hm : List.Pairwise (· < ·) (buys.map Order.seq) := List.pairwise_map.2 hpw
    have hm2 : List.Pairwise (· < ·)
        ((buys.set (bestBuy buys).1
          { stepBuyOrder buys with
            quantity := (stepBuyOrder buys).quantity - stepQty buys sells }).map
          Order.seq) := by
      rw [h2]; exact hm
    exact List.pairwise_map.1 hm2

/-- One trade iteration preserves strict ordering of the ghost arrival
numbers on the sell side. -/
theorem stepSells_pairwise (buys sells : List Order) (hs : sells ≠ [])
    (hpw : List.Pairwise (fun a b : Order => a.seq < b.seq) sells) :
    List.Pairwise (fun a b : Order => a.seq < b.seq) (stepSells buys sells) := by
  have hlt := bestSell_idx_lt sells hs
  simp only [stepSells]
  split
  · rw [set_eraseIdx_self]
    exact hpw.sublist (List.eraseIdx_sublist _ _)
  · have h2 := map_set_eq Order.seq sells (bestSell sells).1 hlt
      { stepSellOrder sells with
        quantity := (stepSellOrder sells).quantity - stepQty buys sells } default rfl
    have hm : List.Pairwise (· < ·) (sells.map Order.seq) := List.pairwise_map.2 hpw
    have hm2 : List.Pairwise (· < ·)
        ((sells.set (bestSell sells).1
          { stepSellOrder sells with
            quantity := (stepSellOrder sells).quantity - stepQty buys sells }).map
          Order.seq) := by
      rw [h2]; exact hm
    exact List.pairwise_map.1 hm2

/-- Time priority on the buy side: when the book is ordered by arrival, the
selected buy order has the smallest arrival number among equally priced buy
orders. -/
theorem step_fifo_buy (buys : List Order) (hb : buys ≠ [])
    (hpw : List.Pairwise (fun a b : Order => a.seq < b.seq) buys) :
    ∀ o ∈ buys, o.price = (stepBuyOrder buys).price →
      (stepBuyOrder buys).seq ≤ o.seq := by
  intro o ho hp
  rcases exists_getD_of_mem default ho with ⟨j, hj, hg⟩
  have hbp : (stepBuyOrder buys).price = (bestBuy buys).2 := stepBuyOrder_price buys hb
  have hfirst := bestBuy_first buys hb j hj (by rw [hg, hp, hbp])
  rcases Nat.lt_or_ge (bestBuy buys).1 j with hlt | hge
  · have hps := pairwise_getD hpw default (bestBuy buys).1 j hlt hj
    rw [hg] at hps
    exact le_of_lt hps
  · have hij : (bestBuy buys).1 = j := le_antisymm hfirst hge
    have heq : stepBuyOrder buys = o := by rw [stepBuyOrder, hij, hg]
    rw [heq]

/-- Time priority on the sell side. -/
theorem step_fifo_sell (sells : List Order) (hs : sells ≠ [])
    (hpw : List.Pairwise (fun a b : Order => a.seq < b.seq) sells) :
    ∀ o ∈ sells, o.price = (stepSellOrder sells).price →
      (stepSellOrder sells).seq ≤ o.seq := by
  intro o ho hp
  rcases exists_getD_of_mem default ho with ⟨j, hj, hg⟩
  have hsp : (stepSellOrder sells).price = (bestSell sells).2 := stepSellOrder_price sells hs
  have hfirst := bestSell_first sells hs j hj (by rw [hg, hp, hsp])
  rcases Nat.lt_or_ge (bestSell sells).1 j with hlt | hge
  · have hps := pairwise_getD hpw default (bestSell sells).1 j hlt hj
    rw [hg] at hps
    exact le_of_lt hps
  · have hij : (bestSell sells).1 = j := le_antisymm hfirst hge
    have heq : stepSellOrder sells = o := by rw [stepSellOrder, hij, hg]
    rw [heq]

/-- Price priority on the buy side: the selected buy order is priced at
least as high as every buy order in the book. -/
theorem step_priceprio_buy (buys : List Order) (hb : buys ≠ []) :
    ∀ o ∈ buys, o.price ≤ (stepBuyOrder buys).price := by
  intro o ho
  rw [stepBuyOrder_price buys hb]
  exact bestBuy_mem_le buys o ho

/-- Price priority on the sell side: the selected sell order is priced at
most as high as every sell order in the book. -/
theorem step_priceprio_sell (sells : List Order) (hs : sells ≠ []) :
    ∀ o ∈ sells, (stepSellOrder sells).price ≤ o.price := by
  intro o ho
  rw [stepSellOrder_price sells hs]
  exact bestSell_mem_ge sells o ho

/-- When the loop does not break, the selected orders cross: the buy limit
price is at least the sell limit price. -/
theorem step_cross (buys sells : List Order) (hb : buys ≠ []) (hs : sells ≠ [])
    (hnc : ¬ (bestBuy buys).2 < (bestSell sells).2) :
    (stepSellOrder sells).price ≤ (stepBuyOrder buys).price := by
  rw [stepBuyOrder_price buys hb, stepSellOrder_price sells hs]
  exact le_of_not_lt hnc

/-- The loop guard: when the while-condition holds, both sides are
nonempty. -/
theorem not_empty_of_guard {buys sells : List Order}
    (h : ¬(buys.isEmpty || sells.isEmpty) = true) : buys ≠ [] ∧ sells ≠ [] := by
  constructor <;> intro heq <;> rw [heq] at h <;> simp at h

/-- Run induction for the matching loop: any per-iteration property of the
emitted event that is provable from an invariant preserved by the trade
step holds for all events of a run, and the invariant holds of the final
book sides. -/
theorem matchOrdersF_run
    (I : List Order → List Order → Prop)
    (P : TradeEvent → Prop)
    (hstep : ∀ buys sells, I buys sells → buys ≠ [] → sells ≠ [] →
      ¬ (bestBuy buys).2 < (bestSell sells).2 →
      P (stepEvent buys sells) ∧ I (stepBuys buys sells) (stepSells buys sells)) :
    ∀ fuel buys sells out, matchOrdersF fuel buys sells = some out →
      I buys sells → (∀ ev ∈ out.2.2, P ev) ∧ I out.1 out.2.1 := by
  intro fuel
  induction fuel with
  | zero =>
    intro buys sells out hrun hI
    simp only [matchOrdersF] at hrun
    split at hrun
    · have := Option.some.inj hrun
      subst this
      exact ⟨by intro ev hev; simp at hev, hI⟩
    · split at hrun
      · have := Option.some.inj hrun
        subst this
        exact ⟨by intro ev hev; simp at hev, hI⟩
      · simp at hrun
  | succ fuel ih =>
    intro buys sells out hrun hI
    simp only [matchOrdersF] at hrun
    split at hrun
    · have := Option.some.inj hrun
      subst this
      exact ⟨by intro ev hev; simp at hev, hI⟩
    · split at hrun
      · have := Option.some.inj hrun
        subst this
        exact ⟨by intro ev hev; simp at hev, hI⟩
      · next hg hc =>
        rcases not_empty_of_guard hg with ⟨hb, hs⟩
        rcases Option.map_eq_some'.1 hrun with ⟨r, hr, hout⟩
        rcases hstep buys sells hI hb hs hc with ⟨hP, hI'⟩
        rcases ih (stepBuys buys sells) (stepSells buys sells) r hr hI' with ⟨hPs, hIout⟩
        subst hout
        refine ⟨?_, hIout⟩
        intro ev hev
        rcases List.mem_cons.1 hev with rfl | hev'
        · exact hP
        · exact hPs ev hev'

/-- Fuel equal to the total number of resting orders always suffices: every
iteration removes at least one order, so the loop ends before the fuel. -/
theorem matchOrdersF_isSome_of_le :
    ∀ fuel buys sells, buys.length + sells.length ≤ fuel →
      (matchOrdersF fuel buys sells).isSome = true := by
  intro fuel
  induction fuel with
  | zero =>
    intro buys sells hle
    have hb : buys = [] := List.length_eq_zero.1 (by omega)
    subst hb
    simp [matchOrdersF]
  | succ fuel ih =>
    intro buys sells hle
    simp only [matchOrdersF]
    split
    · simp
    · split
      · simp
      · next hg _ =>
        rcases not_empty_of_guard hg with ⟨hb, hs⟩
        have hlt := step_length_lt buys sells hb hs
        have hrec := ih (stepBuys buys sells) (stepSells buys sells) (by omega)
        rcases Option.isSome_iff_exists.1 hrec with ⟨r, hr⟩
        rw [hr]
        simp

/-- Whenever the matching loop completes, the resulting book is uncrossed:
a side is empty or the best buy price is strictly below the best sell
price. -/
theorem matchOrdersF_exit :
    ∀ fuel buys sells out, matchOrdersF fuel buys sells = some out →
      out.1 = [] ∨ out.2.1 = [] ∨ (bestBuy out.1).2 < (bestSell out.2.1).2 := by
  intro fuel
  induction fuel with
  | zero =>
    intro buys sells out hrun
    simp only [matchOrdersF] at hrun
    split at hrun
    · next hg =>
      have := Option.some.inj hrun
      subst this
      rcases Bool.or_eq_true_iff.1 hg with h | h
      · exact Or.inl (List.isEmpty_iff.1 h)
      · exact Or.inr (Or.inl (List.isEmpty_iff.1 h))
    · split at hrun
      · next hc =>
        have := Option.some.inj hrun
        subst this
        exact Or.inr (Or.inr hc)
      · simp at hrun
  | succ fuel ih =>
    intro buys sells out hrun
    simp only [matchOrdersF] at hrun
    split at hrun
    · next hg =>
      have := Option.some.inj hrun
      subst this
      rcases Bool.or_eq_true_iff.1 hg with h | h
      · exact Or.inl (List.isEmpty_iff.1 h)
      · exact Or.inr (Or.inl (List.isEmpty_iff.1 h))
    · split at hrun
      · next hc =>
        have := Option.some.inj hrun
        subst this
        exact Or.inr (Or.inr hc)
      · rcases Option.map_eq_some'.1 hrun with ⟨r, hr, hout⟩
        have := ih (stepBuys buys sells) (stepSells buys sells) r hr
        subst hout
        exact this

/-- OrderBook.matchOrders agrees with a completed run of the fuel-indexed
loop: the fallback branch for exhausted fuel is dead code. -/
theorem OrderBook.matchOrders_spec (bk : OrderBook) :
    ∃ out, matchOrdersF bk.matchFuel bk.buyOrders bk.sellOrders = some out ∧
      bk.matchOrders = (⟨out.1, out.2.1⟩, out.2.2) := by
  have h := matchOrdersF_isSome_of_le bk.matchFuel bk.buyOrders bk.sellOrders
    (by simp [OrderBook.matchFuel])
  rcases Option.isSome_iff_exists.1 h with ⟨out, hout⟩
  refine ⟨out, hout, ?_⟩
  simp [OrderBook.matchOrders, hout]

/-- A book whose sell side is empty is returned unchanged by the matching
loop, with no trade events. -/
theorem OrderBook.matchOrders_empty_sells (bk : OrderBook) (h : bk.sellOrders = []) :
    bk.matchOrders = (bk, []) := by
  have hrun : matchOrdersF bk.matchFuel bk.buyOrders bk.sellOrders =
      some (bk.buyOrders, bk.sellOrders, []) := by
    rw [h]
    cases bk.matchFuel <;> simp [matchOrdersF]
  simp only [OrderBook.matchOrders]
  rw [hrun]

/-- After the matching loop completes on any book, every buy order is
priced strictly below every sell order. -/
theorem OrderBook.matchOrders_uncrossed (bk : OrderBook) :
    ∀ ob ∈ (bk.matchOrders.1).buyOrders, ∀ os ∈ (bk.matchOrders.1).sellOrders,
      ob.price < os.price := by
  rcases OrderBook.matchOrders_spec bk with ⟨out, hrun, heq⟩
  rw [heq]
  intro ob hob os hos
  rcases matchOrdersF_exit _ _ _ _ hrun with h | h | h
  · rw [h] at hob; simp at hob
  · rw [h] at hos; simp at hos
  · have h1 : ob.price ≤ (bestBuy out.1).2 := bestBuy_mem_le out.1 ob hob
    have h2 : (bestSell out.2.1).2 ≤ os.price := bestSell_mem_ge out.2.1 os hos
    exact lt_of_le_of_lt h1 (lt_of_lt_of_le h h2)

/-- C8: the submission operation always terminates: the matching loop,
given fuel equal to the total number of orders in the book, always reaches
one of its own exit conditions (incoming side exhausted, a side empty, or
no crossing counter-order) and never exhausts the fuel.  OrderBook.addOrder
runs the loop with exactly this fuel, so it always runs to completion. -/
theorem C8_matching_terminates (buys sells : List Order) :
    (matchOrdersF (buys.length + sells.length) buys sells).isSome = true :=
  matchOrdersF_isSome_of_le (buys.length + sells.length) buys sells (le_refl _)

/-- C3: crossing invariant: every trade emitted by the matching loop is
between a buy order and a sell order whose limit prices cross: the buy
limit price is at least the sell limit price. -/
theorem C3_crossing_invariant (fuel : Nat) (buys sells b' s' : List Order)
    (evs : List TradeEvent)
    (hrun : matchOrdersF fuel buys sells = some (b', s', evs)) :
    ∀ ev ∈ evs, ev.sellSnap.price ≤ ev.buySnap.price :=
  (matchOrdersF_run (fun _ _ => True)
    (fun ev => ev.sellSnap.price ≤ ev.buySnap.price)
    (fun bs ss _ hb hs hc => ⟨step_cross bs ss hb hs hc, trivial⟩)
    fuel buys sells (b', s', evs) hrun trivial).1

/-- Witness for C3 on Scenario A: the single trade has buy limit 50 and
sell limit 45. -/
theorem C3_witness :
    matchOrdersF 2 [oBuyA] [oSellA] = some ([oBuyA'], [], [evA]) ∧
      evA.sellSnap.price ≤ evA.buySnap.price :=
  ⟨by decide,
   C3_crossing_invariant 2 [oBuyA] [oSellA] [oBuyA'] [] [evA] (by decide) evA
     (by simp)⟩

/-- C4: every trade's quantity is the minimum of the two matched orders'
remaining quantities at that moment, hence exceeds neither. -/
theorem C4_trade_qty_min (fuel : Nat) (buys sells b' s' : List Order)
    (evs : List TradeEvent)
    (hrun : matchOrdersF fuel buys sells = some (b', s', evs)) :
    ∀ ev ∈ evs, ev.qty = min ev.buySnap.quantity ev.sellSnap.quantity ∧
      ev.qty ≤ ev.buySnap.quantity ∧ ev.qty ≤ ev.sellSnap.quantity :=
  (matchOrdersF_run (fun _ _ => True)
    (fun ev => ev.qty = min ev.buySnap.quantity ev.sellSnap.quantity ∧
      ev.qty ≤ ev.buySnap.quantity ∧ ev.qty ≤ ev.sellSnap.quantity)
    (fun bs ss _ _ _ _ =>
      ⟨⟨stepQty_eq_min bs ss, stepQty_le_buy bs ss, stepQty_le_sell bs ss⟩,
        trivial⟩)
    fuel buys sells (b', s', evs) hrun trivial).1

/-- Witness for C4 on Scenario A: the trade quantity 60 is
min(100, 60). -/
theorem C4_witness :
    matchOrdersF 2 [oBuyA] [oSellA] = some ([oBuyA'], [], [evA]) ∧
      evA.qty = min evA.buySnap.quantity evA.sellSnap.quantity :=
  ⟨by decide,
   (C4_trade_qty_min 2 [oBuyA] [oSellA] [oBuyA'] [] [evA] (by decide) evA
     (by simp)).1⟩

/-- C1 (amended): the execution price of every trade is the sell order's
limit price — the source comment says "Trade at the sell price" — whether
the sell order is the resting or the incoming one.  The claimed rule
(price of the passive resting order) fails: see C1_counterexample. -/
theorem C1_price_is_sell_price (fuel : Nat) (buys sells b' s' : List Order)
    (evs : List TradeEvent)
    (hrun : matchOrdersF fuel buys sells = some (b', s', evs)) :
    ∀ ev ∈ evs, ev.price = ev.sellSnap.price :=
  (matchOrdersF_run (fun _ _ => True)
    (fun ev => ev.price = ev.sellSnap.price)
    (fun _ _ _ _ _ _ => ⟨rfl, trivial⟩)
    fuel buys sells (b', s', evs) hrun trivial).1

/-- Counterexample to C1 as stated: Scenario A (submit Buy 100 at 50, then
Sell 60 at 45) produces one trade of quantity 60 at price 45 — the
incoming sell's price — not at the resting buy's price 50. -/
theorem C1_counterexample :
    (OrderBook.addOrder (OrderBook.addOrder ⟨[], []⟩ oBuyA).1 oSellA).2.map
        TradeEvent.price = [45] ∧
      (OrderBook.addOrder (OrderBook.addOrder ⟨[], []⟩ oBuyA).1 oSellA).2.map
        TradeEvent.qty = [60] ∧
      ¬ (45 : ℚ) = 50 := by decide

/-- Witness for the amended C1 on Scenario A: the trade price equals the
sell order's limit price. -/
theorem C1_witness :
    matchOrdersF 2 [oBuyA] [oSellA] = some ([oBuyA'], [], [evA]) ∧
      evA.price = evA.sellSnap.price :=
  ⟨by decide,
   C1_price_is_sell_price 2 [oBuyA] [oSellA] [oBuyA'] [] [evA] (by decide) evA
     (by simp)⟩

/-- C6: price priority: every trade matches the highest-priced buy order
and the lowest-priced sell order present in the book at that moment; in
particular, of two eligible resting orders at different prices the
better-priced one is matched first. -/
theorem C6_price_priority (fuel : Nat) (buys sells b' s' : List Order)
    (evs : List TradeEvent)
    (hrun : matchOrdersF fuel buys sells = some (b', s', evs)) :
    ∀ ev ∈ evs,
      (∀ o ∈ ev.buysBefore, o.price ≤ ev.buySnap.price) ∧
      (∀ o ∈ ev.sellsBefore, ev.sellSnap.price ≤ o.price) :=
  (matchOrdersF_run (fun _ _ => True)
    (fun ev => (∀ o ∈ ev.buysBefore, o.price ≤ ev.buySnap.price) ∧
      (∀ o ∈ ev.sellsBefore, ev.sellSnap.price ≤ o.price))
    (fun bs ss _ hb hs _ =>
      ⟨⟨step_priceprio_buy bs hb, step_priceprio_sell ss hs⟩, trivial⟩)
    fuel buys sells (b', s', evs) hrun trivial).1

/-- Witness for C6 on Scenario B: with resting buys at 20 and 21 and an
incoming sell at 19, the first trade matches the buy at 21, the better
price. -/
theorem C6_witness :
    matchOrdersF 3 [oBuy20, oBuy21] [oSell19] = some ([oBuy20'], [], [evB1, evB2]) ∧
      oBuy20.price ≤ evB1.buySnap.price :=
  ⟨by decide,
   (C6_price_priority 3 [oBuy20, oBuy21] [oSell19] [oBuy20'] [] [evB1, evB2]
     (by decide) evB1 (by simp)).1 oBuy20 (by decide)⟩

/-- C7: time priority: when each side of the book is ordered by the ghost
arrival sequence number (as produced by appending arrivals in order, which
matching preserves), every trade matches the order with the smallest
arrival number among the equally best-priced orders of its side. -/
theorem C7_time_priority (fuel : Nat) (buys sells b' s' : List Order)
    (evs : List TradeEvent)
    (hbw : List.Pairwise (fun a b : Order => a.seq < b.seq) buys)
    (hsw : List.Pairwise (fun a b : Order => a.seq < b.seq) sells)
    (hrun : matchOrdersF fuel buys sells = some (b', s', evs)) :
    ∀ ev ∈ evs,
      (∀ o ∈ ev.buysBefore, o.price = ev.buySnap.price → ev.buySnap.seq ≤ o.seq) ∧
      (∀ o ∈ ev.sellsBefore, o.price = ev.sellSnap.price → ev.sellSnap.seq ≤ o.seq) :=
  (matchOrdersF_run
    (fun b s => List.Pairwise (fun a b : Order => a.seq < b.seq) b ∧
      List.Pairwise (fun a b : Order => a.seq < b.seq) s)
    (fun ev =>
      (∀ o ∈ ev.buysBefore, o.price = ev.buySnap.price → ev.buySnap.seq ≤ o.seq) ∧
      (∀ o ∈ ev.sellsBefore, o.price = ev.sellSnap.price → ev.sellSnap.seq ≤ o.seq))
    (fun bs ss hI hb hs _ =>
      ⟨⟨step_fifo_buy bs hb hI.1, step_fifo_sell ss hs hI.2⟩,
        ⟨stepBuys_pairwise bs ss hb hI.1, stepSells_pairwise bs ss hs hI.2⟩⟩)
    fuel buys sells (b', s', evs) hrun ⟨hbw, hsw⟩).1

/-- Witness for C7 on the tie scenario: two resting buys at the same price
20 with arrival numbers 0 and 1; the incoming sell matches the one with
arrival number 0. -/
theorem C7_witness :
    List.Pairwise (fun a b : Order => a.seq < b.seq) [oTie0, oTie1] ∧
      List.Pairwise (fun a b : Order => a.seq < b.seq) [oTieSell] ∧
      matchOrdersF 3 [oTie0, oTie1] [oTieSell] = some ([oTie0', oTie1], [], [evT]) ∧
      oTie1 ∈ evT.buysBefore ∧ oTie1.price = evT.buySnap.price ∧
      evT.buySnap.seq ≤ oTie1.seq := by
  refine ⟨by decide, by decide, by decide, by decide, by decide, ?_⟩
  exact (C7_time_priority 3 [oTie0, oTie1] [oTieSell] [oTie0', oTie1] [] [evT]
    (by decide) (by decide) (by decide) evT (by simp)).1 oTie1 (by decide) (by decide)

/-- C5 (amended): provided every order in the book has positive remaining
quantity — which holds when every submission has positive quantity, since
there is no input validation — matching keeps every remaining quantity
positive, and every trade decrements both participants by a positive
quantity not exceeding either remaining quantity, so remaining quantities
are non-increasing and never negative.  As stated the claim fails, because
an order submitted with negative quantity rests with that negative
remaining: see C5_counterexample. -/
theorem C5_remaining_nonneg (fuel : Nat) (buys sells b' s' : List Order)
    (evs : List TradeEvent)
    (hb : ∀ o ∈ buys, 0 < o.quantity) (hs : ∀ o ∈ sells, 0 < o.quantity)
    (hrun : matchOrdersF fuel buys sells = some (b', s', evs)) :
    (∀ o ∈ b', 0 < o.quantity) ∧ (∀ o ∈ s', 0 < o.quantity) ∧
      ∀ ev ∈ evs, 0 < ev.qty ∧ ev.qty ≤ ev.buySnap.quantity ∧
        ev.qty ≤ ev.sellSnap.quantity := by
  have h := matchOrdersF_run
    (fun b s => (∀ o ∈ b, 0 < o.quantity) ∧ (∀ o ∈ s, 0 < o.quantity))
    (fun ev => 0 < ev.qty ∧ ev.qty ≤ ev.buySnap.quantity ∧
      ev.qty ≤ ev.sellSnap.quantity)
    (fun bs ss hI hbne hsne _ => by
      refine ⟨?_, stepBuys_pos bs ss hI.1, stepSells_pos bs ss hI.2⟩
      refine ⟨?_, stepQty_le_buy bs ss, stepQty_le_sell bs ss⟩
      have h1 := hI.1 (stepBuyOrder bs) (stepBuyOrder_mem bs hbne)
      have h2 := hI.2 (stepSellOrder ss) (stepSellOrder_mem ss hsne)
      have h3 := stepQty_eq_min bs ss
      show 0 < stepQty bs ss
      omega)
    fuel buys sells (b', s', evs) hrun ⟨hb, hs⟩
  exact ⟨h.2.1, h.2.2, h.1⟩

/-- Counterexample to C5 as stated: a submitted order with quantity -5 is
inserted unchecked and rests with a negative remaining quantity. -/
theorem C5_counterexample :
    (OrderBook.addOrder ⟨[], []⟩ oNeg).1.buyOrders = [oNeg] ∧
      oNeg.quantity < 0 := by decide

/-- Witness for the amended C5 on Scenario A: positive submissions, and
after the trade every resting remaining quantity is still positive. -/
theorem C5_witness :
    (∀ o ∈ [oBuyA], 0 < o.quantity) ∧ (∀ o ∈ [oSellA], 0 < o.quantity) ∧
      matchOrdersF 2 [oBuyA] [oSellA] = some ([oBuyA'], [], [evA]) ∧
      (∀ o ∈ [oBuyA'], 0 < o.quantity) := by
  refine ⟨by decide, by decide, by decide, ?_⟩
  exact (C5_remaining_nonneg 2 [oBuyA] [oSellA] [oBuyA'] [] [evA] (by decide)
    (by decide) (by decide)).1

/-- C9 (amended): matching never reorders surviving entries and only
changes their quantity field (the quantity-forgetting projection of each
side remains a sublist of what it was), but fully filled orders are
REMOVED from the collection by removeAt rather than kept: with positive
submissions, no filled (zero-remaining) order is ever present in the book.
The claimed physical retention of filled orders fails: see
C9_counterexample. -/
theorem C9_filled_orders_removed (fuel : Nat) (buys sells b' s' : List Order)
    (evs : List TradeEvent)
    (hb : ∀ o ∈ buys, 0 < o.quantity) (hs : ∀ o ∈ sells, 0 < o.quantity)
    (hrun : matchOrdersF fuel buys sells = some (b', s', evs)) :
    (∀ o ∈ b', 0 < o.quantity) ∧ (∀ o ∈ s', 0 < o.quantity) ∧
      (b'.map orderKey).Sublist (buys.map orderKey) ∧
      (s'.map orderKey).Sublist (sells.map orderKey) := by
  have h := matchOrdersF_run
    (fun b s => ((∀ o ∈ b, 0 < o.quantity) ∧ (∀ o ∈ s, 0 < o.quantity)) ∧
      (b.map orderKey).Sublist (buys.map orderKey) ∧
      (s.map orderKey).Sublist (sells.map orderKey))
    (fun _ => True)
    (fun bs ss hI hbne hsne _ =>
      ⟨trivial,
        ⟨⟨stepBuys_pos bs ss hI.1.1, stepSells_pos bs ss hI.1.2⟩,
          (stepBuys_key_sublist bs ss hbne).trans hI.2.1,
          (stepSells_key_sublist bs ss hsne).trans hI.2.2⟩⟩)
    fuel buys sells (b', s', evs) hrun
    ⟨⟨hb, hs⟩, List.Sublist.refl _, List.Sublist.refl _⟩
  exact ⟨h.2.1.1, h.2.1.2, h.2.2.1, h.2.2.2⟩

/-- Counterexample to C9 as stated: in Scenario A the sell order is fully
filled by the one emitted trade and its entry is removed from the sell
side, not kept to be skipped by scans. -/
theorem C9_counterexample :
    (OrderBook.addOrder (OrderBook.addOrder ⟨[], []⟩ oBuyA).1 oSellA).2.length = 1 ∧
      (OrderBook.addOrder (OrderBook.addOrder ⟨[], []⟩ oBuyA).1 oSellA).1.sellOrders
        = [] := by decide

/-- Witness for the amended C9 on Scenario A: the surviving buy entry keeps
its identity and position (sublist of keys) and stays positive. -/
theorem C9_witness :
    (∀ o ∈ [oBuyA], 0 < o.quantity) ∧ (∀ o ∈ [oSellA], 0 < o.quantity) ∧
      matchOrdersF 2 [oBuyA] [oSellA] = some ([oBuyA'], [], [evA]) ∧
      ([oBuyA'].map orderKey).Sublist ([oBuyA].map orderKey) := by
  refine ⟨by decide, by decide, by decide, ?_⟩
  exact (C9_filled_orders_removed 2 [oBuyA] [oSellA] [oBuyA'] [] [evA]
    (by decide) (by decide) (by decide)).2.2.1

/-- C10: after every completed call to OrderBook.addOrder the book is
uncrossed: every buy order is priced strictly below every sell order
(vacuously when a side is empty).  This holds for every starting book and
every submitted order, with no positivity hypothesis needed. -/
theorem C10_book_uncrossed (bk : OrderBook) (o : Order) :
    ∀ ob ∈ ((bk.addOrder o).1).buyOrders, ∀ os ∈ ((bk.addOrder o).1).sellOrders,
      ob.price < os.price := by
  simp only [OrderBook.addOrder]
  split
  · exact OrderBook.matchOrders_uncrossed _
  · exact OrderBook.matchOrders_uncrossed _

/-- Witness for C10: a sell at 60 submitted against a resting buy at 50
rests; both sides are nonempty and 50 < 60. -/
theorem C10_witness :
    oRestBuy ∈ ((OrderBook.addOrder ⟨[oRestBuy], []⟩ oHighSell).1).buyOrders ∧
      oHighSell ∈ ((OrderBook.addOrder ⟨[oRestBuy], []⟩ oHighSell).1).sellOrders ∧
      oRestBuy.price < oHighSell.price := by
  refine ⟨by decide, by decide, ?_⟩
  exact C10_book_uncrossed ⟨[oRestBuy], []⟩ oHighSell oRestBuy (by decide)
    oHighSell (by decide)

/-- C2 (amended): the submission operation performs no input validation:
an order with non-positive quantity or price is created and inserted into
its side's collection like any other, mutating the book — there is no
InvalidInput failure path.  With an empty opposite side the invalid order
simply rests.  The claimed rejection fails: see C2_counterexample. -/
theorem C2_no_validation (bk : OrderBook) (o : Order)
    (hinvalid : o.quantity ≤ 0 ∨ o.price ≤ 0)
    (hbuy : o.orderType = OrderType.BUY) (hsell : bk.sellOrders = []) :
    bk.addOrder o = ({ bk with buyOrders := bk.buyOrders ++ [o] }, []) := by
  simp only [OrderBook.addOrder, if_pos hbuy]
  exact OrderBook.matchOrders_empty_sells _ hsell

/-- Counterexample to C2 as stated: submitting quantity -5 through the
top-level addOrder mutates the book — the order is appended to the hashed
book's buy side, with no rejection before insertion. -/
theorem C2_counterexample :
    ((addOrder (fun _ => OrderBook.mk [] []) OrderType.BUY tickA (-5) 10 3 0).1
        (getOrderBookIndex tickA)).buyOrders = [oNeg] ∧
      ¬ ([oNeg] = ([] : List Order)) := by decide

/-- Witness for the amended C2: the invalid order (quantity -5) is
inserted and rests in the previously empty book. -/
theorem C2_witness :
    (oNeg.quantity ≤ 0 ∨ oNeg.price ≤ 0) ∧
      OrderBook.addOrder ⟨[], []⟩ oNeg = (⟨[oNeg], []⟩, []) := by
  refine ⟨Or.inl (by decide), ?_⟩
  exact C2_no_validation ⟨[], []⟩ oNeg (Or.inl (by decide)) (by decide) rfl

end BrokerThreading
